import Mathlib

/-!
Verification development for the Future Gate email-dashboard core
(thread-assignment and response-metrics engine).

The definitions below are a shallow embedding of the core JavaScript
module (normalization utilities, direction classifier, thread-key
resolver, ingestion/upsert engine, response-metrics calculator, local
summarizer).  Conventions of the embedding:

* JS strings are Lean `String`s, manipulated through their `List Char`
  data (so that everything reduces in the kernel).  JS `\s` and
  `String.prototype.trim` whitespace is modelled by `jsIsWs` (the ASCII
  whitespace characters).  `toLowerCase` is modelled ASCII-only by
  `Char.toLower`.
* JS `Date` values are modelled as `Int` milliseconds since the epoch;
  a message timestamp is an `Option Int` — `none` models the case where
  every accepted timestamp alias field of the raw message is
  unparseable (`parseIsoDate` returned `null`).  ISO strings stored in
  records are represented by the same integer (ISO rendering is
  injective and order-preserving).
* `nanoid` / random id generation is modelled by a fresh counter
  (`Db.nextId`); ids are `Nat`.  Only freshness/uniqueness of the ids
  matters to the logic.
* `stableHash` is sha-256 hex in the source; it is modelled as the
  identity embedding, which is deterministic and injective (idealised
  collision resistance).  No claim depends on the digest itself.
* JS `Set` insertion plus `Array.from` is modelled by order-preserving
  first-occurrence deduplication; `Array.prototype.sort` (a stable sort
  with a consistent comparator) is modelled by a stable insertion sort.
* Float arithmetic in `Math.round(sum / count)` is modelled exactly
  over the integers: round-half-up of the exact quotient.
-/

/-- ASCII whitespace, modelling the characters JS `\s` and `trim` treat
as whitespace in the inputs at hand. -/
def jsIsWs (c : Char) : Bool :=
  c == ' ' || c == '\t' || c == '\n' || c == '\r' || c == '\x0b' || c == '\x0c'

/-- Model of `String.prototype.trim` on the character list. -/
def jsTrimChars (l : List Char) : List Char :=
  ((l.dropWhile jsIsWs).reverse.dropWhile jsIsWs).reverse

/-- Model of `String.prototype.trim`. -/
def jsTrim (s : String) : String :=
  String.mk (jsTrimChars s.data)

/-- Model of `String.prototype.slice(0, n)` (and `.take`) on strings. -/
def takeStr (n : Nat) (s : String) : String :=
  String.mk (s.data.take n)

/-- Model of `String.prototype.toLowerCase` (ASCII). -/
def lowerStr (s : String) : String :=
  String.mk (s.data.map Char.toLower)

/-- Case-insensitive matching of a (lower-case) marker against the head
of the character list; returns the remainder after the marker. -/
def afterMarkerCI : List Char → List Char → Option (List Char)
  | [], s => some s
  | _ :: _, [] => none
  | m :: ms, c :: cs => if c.toLower = m then afterMarkerCI ms cs else none

/-- One attempt of the regex alternative `marker` inside
`/^(\s*(re|fw|fwd)\s*:\s*)/i` applied after the leading `\s*` has been
consumed: marker letters (case-insensitive), optional whitespace, a
colon, optional whitespace.  Returns the remainder of the subject. -/
def matchMarker (marker : List Char) (s : List Char) : Option (List Char) :=
  match afterMarkerCI marker s with
  | none => none
  | some r =>
    match r.dropWhile jsIsWs with
    | ':' :: r2 => some (r2.dropWhile jsIsWs)
    | _ => none

/-- One pass of `s.replace(/^(\s*(re|fw|fwd)\s*:\s*)/i, "")`:
`some t` when the regex matched (with `t` the remaining subject),
`none` when it did not (so the replace left `s` unchanged).  The
alternatives are tried in the regex's backtracking order
`re`, `fw`, `fwd`. -/
def stripOneMarker (s : List Char) : Option (List Char) :=
  let t := s.dropWhile jsIsWs
  (matchMarker ['r', 'e'] t).orElse fun _ =>
    (matchMarker ['f', 'w'] t).orElse fun _ =>
      matchMarker ['f', 'w', 'd'] t

/-- The `do { prev = s; s = s.replace(...) } while (s !== prev)` loop of
`normalizeSubject`, with explicit fuel (each successful pass strictly
shortens the subject, so `s.length + 1` fuel always reaches the exit
condition — proved below). -/
def stripMarkersFuel : Nat → List Char → List Char
  | 0, s => s
  | fuel + 1, s =>
    match stripOneMarker s with
    | some t => stripMarkersFuel fuel t
    | none => s

/-- The marker-stripping loop run to its fixpoint. -/
def stripMarkersList (s : List Char) : List Char :=
  stripMarkersFuel (s.length + 1) s

/-- Model of `s.replace(/\s+/g, " ")`: every maximal whitespace run
becomes a single space.  The boolean records whether the previous
character was part of a whitespace run already emitted. -/
def collapseWsAux : Bool → List Char → List Char
  | _, [] => []
  | prevWs, c :: rest =>
    if jsIsWs c then
      if prevWs then collapseWsAux true rest
      else ' ' :: collapseWsAux true rest
    else c :: collapseWsAux false rest

/-- Model of `s.replace(/\s+/g, " ")`. -/
def collapseWs (l : List Char) : List Char :=
  collapseWsAux false l

/-- util.normalizeSubject: repeatedly strip a leading reply/forward
marker, then collapse whitespace runs and trim.

```js
function normalizeSubject(subject) {
  if (!subject) return "";
  let s = String(subject).trim();
  let prev;
  do { prev = s; s = s.replace(/^(\s*(re|fw|fwd)\s*:\s*)/i, ""); } while (s !== prev);
  s = s.replace(/\s+/g, " ").trim();
  return s;
}
``` -/
def normalizeSubject (subject : String) : String :=
  if subject = "" then ""
  else
    String.mk (jsTrimChars (collapseWs (stripMarkersList (jsTrimChars subject.data))))

/-- util.safeEmail: `if (!val) return ""; return String(val).trim().toLowerCase();` -/
def safeEmail (val : String) : String :=
  if val = "" then "" else lowerStr (jsTrim val)

/-- Index-free model of `e.lastIndexOf("@")` plus `slice(at + 1)`: the
characters after the last `'@'`, or `none` when there is no `'@'`. -/
def afterLastAt (l : List Char) : Option (List Char) :=
  if '@' ∈ l then some ((l.reverse.takeWhile (fun c => c != '@')).reverse) else none

/-- util.domainOf: `const e = safeEmail(email); const at = e.lastIndexOf("@");
return at >= 0 ? e.slice(at + 1) : "";` -/
def domainOf (email : String) : String :=
  match afterLastAt (safeEmail email).data with
  | some rest => String.mk rest
  | none => ""

/-- Lexicographic `≤` on character lists by code point, the building
block of the JS default string comparison. -/
def charsLe : List Char → List Char → Bool
  | [], _ => true
  | _ :: _, [] => false
  | a :: as, b :: bs =>
    if a.toNat < b.toNat then true
    else if b.toNat < a.toNat then false
    else charsLe as bs

/-- JS string comparison (`<` on UTF-16 code units), as a boolean `≤`,
modelled on code points. -/
def strLe (a b : String) : Bool :=
  charsLe a.data b.data

/-- Generic insertion of `a` into `l` before the first element `x` with
`le a x`; building block of the stable-sort model. -/
def insertBy (le : α → α → Bool) (a : α) : List α → List α
  | [] => [a]
  | x :: xs => if le a x then a :: x :: xs else x :: insertBy le a xs

/-- Stable sort by the boolean relation `le` (insertion sort).  Models
JS `Array.prototype.sort` with a consistent comparator: the result is
the unique sorted permutation keeping tied elements in input order. -/
def sortBy (le : α → α → Bool) : List α → List α
  | [] => []
  | x :: xs => insertBy le x (sortBy le xs)

/-- Model of `Array.from(new Set(list))`: first-occurrence
order-preserving deduplication. -/
def dedupFirstAux (seen : List String) : List String → List String
  | [] => []
  | x :: xs =>
    if seen.contains x then dedupFirstAux seen xs
    else x :: dedupFirstAux (x :: seen) xs

/-- Model of `Array.from(new Set(list))`. -/
def dedupFirst (l : List String) : List String :=
  dedupFirstAux [] l

/-- Model of `Array.from(new Set(list)).filter(Boolean).sort()`. -/
def jsSetFilterSort (l : List String) : List String :=
  sortBy strLe ((dedupFirst l).filter (fun s => s != ""))

/-- core: a message's direction, `classifyDirection` result. -/
inductive Direction where
  | staff
  | client
deriving DecidableEq, Repr

/-- core.classifyDirection:
`domainOf(fromEmail) === STAFF_DOMAIN ? "staff" : "client"`.
The configured staff domain is passed explicitly. -/
def classifyDirection (staffDomain : String) (fromEmail : String) : Direction :=
  if domainOf fromEmail = staffDomain then .staff else .client

/-- util.pickParticipants: sender, recipients and cc, normalized,
deduplicated, non-empty, sorted ascending.

```js
const list = [];
if (email.from) list.push(safeEmail(email.from));
(email.to || []).forEach(x => list.push(safeEmail(x)));
(email.cc || []).forEach(x => list.push(safeEmail(x)));
return Array.from(new Set(list)).filter(Boolean).sort();
``` -/
def pickParticipants (eFrom : String) (eTo eCc : List String) : List String :=
  jsSetFilterSort
    ((if eFrom = "" then [] else [safeEmail eFrom]) ++ eTo.map safeEmail ++ eCc.map safeEmail)

/-- util.stableHash: sha-256 hex digest in the source; modelled as the
identity embedding (deterministic, injective — idealised collision
resistance).  No claim depends on the digest value itself. -/
def stableHash (input : String) : String :=
  input

/-- core.threadKeyFor:

```js
function threadKeyFor(email) {
  if (email.conversationId) return `conv:${email.conversationId}`;
  const subject = normalizeSubject(email.subject || "");
  const participants = pickParticipants(email);
  const key = stableHash(subject + "|" + participants.join(","));
  return `fallback:${key}`;
}
```

Absent `conversationId` is modelled by the empty string (JS falsy). -/
def threadKeyFor (conversationId subject eFrom : String) (eTo eCc : List String) : String :=
  if conversationId ≠ "" then "conv:" ++ conversationId
  else
    "fallback:" ++
      stableHash
        (normalizeSubject subject ++ "|" ++ String.intercalate "," (pickParticipants eFrom eTo eCc))

/-- One raw message of an incoming batch, after the boundary's
field-alias resolution (`e.messageId || e.id || e.internetMessageId`,
`e.sentAt || e.dateTime || e.receivedAt || e.receivedTime || e.sentTime`,
`e.snippet || e.preview`, `e.bodyHtml || e.body`), each alias chain
collapsed into one field.  `sentAt = none` models the case where the
timestamp is unparseable (`parseIsoDate` returned `null`). -/
structure RawMsg where
  messageId : String
  conversationId : String
  subject : String
  sender : String
  toAddr : List String
  cc : List String
  sentAt : Option Int
  snippet : String
  bodyHtml : String
  bodyText : String
deriving DecidableEq, Repr

/-- One stored Email record (fields the core writes; the `createdAt`
wall-clock field is external to the embedding). -/
structure Email where
  id : Nat
  queryId : String
  threadId : Nat
  messageId : String
  conversationId : String
  subject : String
  sender : String
  toAddr : List String
  cc : List String
  sentAt : Int
  snippet : String
  bodyHtml : String
  bodyText : String
  direction : Direction
deriving DecidableEq, Repr

/-- One stored Thread record (again without the external `createdAt`). -/
structure Thread where
  id : Nat
  queryId : String
  key : String
  conversationId : String
  subject : String
  participants : List String
  firstAt : Int
  lastAt : Int
deriving DecidableEq, Repr

/-- The mutable store as seen by the core: the emails and threads
collections plus the fresh-id counter modelling `nanoid`. -/
structure Db where
  emails : List Email
  threads : List Thread
  nextId : Nat
deriving DecidableEq, Repr

/-- The empty store. -/
def Db.empty : Db :=
  ⟨[], [], 0⟩

/-- The value `upsertEmailsAndThreads` returns:
`{ emailIdsCreated, threadIdsTouched }` (the latter a JS `Set`,
modelled as a first-occurrence-ordered duplicate-free list). -/
structure IngestResult where
  emailIdsCreated : List Nat
  threadIdsTouched : List Nat
deriving DecidableEq, Repr

/-- `Set.prototype.add`: append if not yet present. -/
def touchAdd (l : List Nat) (x : Nat) : List Nat :=
  if l.contains x then l else l ++ [x]

/-- The dedup lookup
`db.emails.find(x => x.messageId && messageId && x.messageId === messageId)`
(a stored `messageId` of `null` is modelled by `""`). -/
def dedupFind (db : Db) (messageId : String) : Option Email :=
  db.emails.find? fun x => x.messageId != "" && messageId != "" && x.messageId == messageId

/-- Processing of one raw message inside the `for (const e of
incomingEmails)` loop of core.upsertEmailsAndThreads, threading the
store and the accumulated result. -/
def upsertStep (staffDomain queryId : String) (st : Db × IngestResult) (e : RawMsg) :
    Db × IngestResult :=
  let db := st.1
  let res := st.2
  match e.sentAt with
  | none => st
  | some sentAt =>
    let sender := safeEmail e.sender
    let toAddr := e.toAddr.map safeEmail
    let cc := e.cc.map safeEmail
    let direction := classifyDirection staffDomain sender
    let messageId := jsTrim e.messageId
    match dedupFind db messageId with
    | some already =>
      (db, { res with threadIdsTouched := touchAdd res.threadIdsTouched already.threadId })
    | none =>
      let key := threadKeyFor e.conversationId e.subject sender toAddr cc
      match db.threads.find? (fun t => t.key == key && t.queryId == queryId) with
      | none =>
        let thread : Thread :=
          { id := db.nextId
            queryId := queryId
            key := key
            conversationId := e.conversationId
            subject := normalizeSubject (if e.subject = "" then "(no subject)" else e.subject)
            participants := jsSetFilterSort (sender :: (toAddr ++ cc))
            firstAt := sentAt
            lastAt := sentAt }
        let email : Email :=
          { id := db.nextId + 1
            queryId := queryId
            threadId := thread.id
            messageId := messageId
            conversationId := e.conversationId
            subject := e.subject
            sender := sender
            toAddr := toAddr
            cc := cc
            sentAt := sentAt
            snippet := takeStr 500 e.snippet
            bodyHtml := e.bodyHtml
            bodyText := e.bodyText
            direction := direction }
        (⟨db.emails ++ [email], db.threads ++ [thread], db.nextId + 2⟩,
          ⟨res.emailIdsCreated ++ [email.id], touchAdd res.threadIdsTouched thread.id⟩)
      | some thread =>
        let updated : Thread :=
          { thread with
            firstAt := if sentAt < thread.firstAt then sentAt else thread.firstAt
            lastAt := if thread.lastAt < sentAt then sentAt else thread.lastAt
            participants := jsSetFilterSort (thread.participants ++ sender :: (toAddr ++ cc))
            subject :=
              if thread.subject = "" || thread.subject = "(no subject)" then
                normalizeSubject (if e.subject = "" then "(no subject)" else e.subject)
              else thread.subject }
        let email : Email :=
          { id := db.nextId
            queryId := queryId
            threadId := thread.id
            messageId := messageId
            conversationId := e.conversationId
            subject := e.subject
            sender := sender
            toAddr := toAddr
            cc := cc
            sentAt := sentAt
            snippet := takeStr 500 e.snippet
            bodyHtml := e.bodyHtml
            bodyText := e.bodyText
            direction := direction }
        (⟨db.emails ++ [email],
            db.threads.map (fun t => if t.id == thread.id then updated else t),
            db.nextId + 1⟩,
          ⟨res.emailIdsCreated ++ [email.id], touchAdd res.threadIdsTouched thread.id⟩)

/-- core.upsertEmailsAndThreads: fold the per-message processing over
the batch, starting from empty result accumulators. -/
def upsertEmailsAndThreads (staffDomain queryId : String) (db : Db) (incomingEmails : List RawMsg) :
    Db × IngestResult :=
  incomingEmails.foldl (upsertStep staffDomain queryId) (db, ⟨[], []⟩)

/-- A sequence of ingestion calls (each with its own query id) applied
to the fresh store. -/
def applyBatches (staffDomain : String) (batches : List (String × List RawMsg)) : Db :=
  batches.foldl (fun db b => (upsertEmailsAndThreads staffDomain b.1 db b.2).1) Db.empty

/-- core.computeResponseMetrics sorting step:
`[...emails].sort((a,b) => new Date(a.sentAt) - new Date(b.sentAt))`
(stable, ascending by sent time). -/
def sortByDate (emails : List Email) : List Email :=
  sortBy (fun a b => decide (a.sentAt ≤ b.sentAt)) emails

/-- One per-client response-metric entry. -/
structure Metric where
  clientMessageId : Nat
  staffReplyId : Option Nat
  responseSeconds : Option Int
deriving DecidableEq, Repr

/-- The value core.computeResponseMetrics returns. -/
structure MetricsResult where
  perClient : List Metric
  averageSeconds : Option Int
deriving DecidableEq, Repr

/-- Model of `Math.round(total / count)` for `count > 0`, computed
exactly over the integers: round half up equals
`floor((2 * total + count) / (2 * count))` (Lean `Int` division is
floor division for a positive divisor). -/
def jsRound (total : Int) (count : Nat) : Int :=
  (2 * total + count) / (2 * (count : Int))

/-- The indexed `for (let i = ...)` / `for (let j = i + 1; ...)` double
loop of core.computeResponseMetrics, as structural recursion: for each
client-direction message, find the first staff-direction message in the
remainder of the (sorted) list. -/
def perClientLoop : List Email → List Metric
  | [] => []
  | msg :: rest =>
    if msg.direction = Direction.client then
      (match rest.find? (fun x => x.direction == Direction.staff) with
        | none => { clientMessageId := msg.id, staffReplyId := none, responseSeconds := none }
        | some reply =>
          { clientMessageId := msg.id
            staffReplyId := some reply.id
            responseSeconds := some (max 0 (Int.fdiv (reply.sentAt - msg.sentAt) 1000)) })
        :: perClientLoop rest
    else perClientLoop rest

/-- core.computeResponseMetrics:

```js
const sorted = [...emails].sort((a,b) => new Date(a.sentAt) - new Date(b.sentAt));
// per client message: first subsequent staff reply,
// responseSeconds = Math.max(0, Math.floor(diffMs / 1000))
const responded = metrics.filter(m => typeof m.responseSeconds === "number");
const avgSeconds = responded.length
  ? Math.round(responded.reduce((s,m) => s + m.responseSeconds, 0) / responded.length)
  : null;
return { perClient: metrics, averageSeconds: avgSeconds };
``` -/
def computeResponseMetrics (emails : List Email) : MetricsResult :=
  let metrics := perClientLoop (sortByDate emails)
  let responded := metrics.filter fun m => m.responseSeconds.isSome
  let avgSeconds :=
    if responded.length = 0 then none
    else some (jsRound ((responded.filterMap fun m => m.responseSeconds).sum) responded.length)
  ⟨metrics, avgSeconds⟩

/-- The value core.basicSummaryFromEmails returns. -/
structure SummaryResult where
  summary : String
  actionItems : List String
deriving DecidableEq, Repr

/-- `sorted.map(e => (e.snippet || e.bodyText || "").trim()).filter(Boolean)`
over the date-sorted emails of the summarizer. -/
def nonEmptySnippets (sorted : List Email) : List String :=
  (sorted.map fun e => jsTrim (if e.snippet = "" then e.bodyText else e.snippet)).filter
    fun s => s != ""

/-- Model of `Array.prototype.slice(-n)`: the last `n` elements. -/
def lastN (n : Nat) (l : List α) : List α :=
  l.drop (l.length - n)

/-- One key-point bullet:
``` `- ${s.slice(0, 160)}${s.length > 160 ? "…" : ""}` ``` -/
def snippetBullet (s : String) : String :=
  "- " ++ takeStr 160 s ++ (if 160 < s.data.length then "…" else "")

/-- The key-point bullet lines of core.basicSummaryFromEmails: the
snippets kept are `snippets.slice(-8)` and then `snippets.slice(0, 5)`
of those — the first five of the last eight non-empty snippets. -/
def keyPointLines (emails : List Email) : List String :=
  ((lastN 8 (nonEmptySnippets (sortByDate emails))).take 5).map snippetBullet

/-- The bullet list core.basicSummaryFromEmails builds (the stored
`sentAt` ISO string is rendered from the modelled integer). -/
def summaryBullets (emails : List Email) : List String :=
  let sorted := sortByDate emails
  let subject :=
    match sorted.head? with
    | some e => if e.subject = "" then "(no subject)" else e.subject
    | none => "(no subject)"
  let participants :=
    (dedupFirst (sorted.flatMap fun e => e.sender :: (e.toAddr ++ e.cc))).filter fun s => s != ""
  let clientCount := (sorted.filter fun e => e.direction == Direction.client).length
  let staffCount := (sorted.filter fun e => e.direction == Direction.staff).length
  let snippets := lastN 8 (nonEmptySnippets sorted)
  ["Subject: " ++ subject,
    "Messages: " ++ toString sorted.length ++ " (client: " ++ toString clientCount ++
      ", staff: " ++ toString staffCount ++ ")",
    "Latest message at: " ++
      (match sorted.getLast? with
        | some e => toString e.sentAt
        | none => "N/A")] ++
  (if participants.length ≠ 0 then
      ["Participants: " ++ String.intercalate ", " (participants.take 8) ++
        (if 8 < participants.length then "…" else "")]
    else []) ++
  (if snippets.length ≠ 0 then "Key points (auto-extracted):" :: keyPointLines emails
    else [])

/-- core.basicSummaryFromEmails: deterministic local summary; the
summary is the bullet list joined by newlines, `actionItems` is the
literal empty array. -/
def basicSummaryFromEmails (emails : List Email) : SummaryResult :=
  ⟨String.intercalate "\n" (summaryBullets emails), []⟩

/-- The claim-side per-client entry at position `i` of the sorted
message list: when the message at `i` is client-direction, pair it with
the first staff-direction message strictly after position `i`. -/
def specEntryAt (s : List Email) (i : Nat) : Option Metric :=
  match s[i]? with
  | none => none
  | some m =>
    if m.direction = Direction.client then
      some
        (match (s.drop (i + 1)).find? (fun x => x.direction == Direction.staff) with
          | none => { clientMessageId := m.id, staffReplyId := none, responseSeconds := none }
          | some reply =>
            { clientMessageId := m.id
              staffReplyId := some reply.id
              responseSeconds := some (max 0 (Int.fdiv (reply.sentAt - m.sentAt) 1000)) })
    else none

/-- Per-client entries as the claim states them: one entry per
client-direction message of the sorted list, in order, each pairing the
client message with the first subsequent staff-direction message
(skipping intervening client messages, never consuming a matched staff
message), with `responseSeconds = max(0, floor((staffTime - clientTime)
in seconds))`, and nulls when no staff message follows. -/
def metricsSpecPerClient (s : List Email) : List Metric :=
  (List.range s.length).filterMap (specEntryAt s)

/-- The average as the claim states it: the exact mean of the non-null
`responseSeconds`, rounded to the nearest whole second (halves up, as
`Math.round` does), or `none` when no client message received a
reply. -/
def specAverage (perClient : List Metric) : Option Int :=
  let answered : List Int := perClient.filterMap fun m => m.responseSeconds
  if answered = [] then none
  else some (round (((answered.sum : Int) : ℚ) / ((answered.length : Nat) : ℚ)))

/-- Boolean check that the first character (if any) is not whitespace. -/
def headNotWs (l : List Char) : Bool :=
  match l.head? with
  | some c => !jsIsWs c
  | none => true

/-- Boolean check that a string's characters contain no two adjacent
whitespace characters. -/
def noWsRun : List Char → Bool
  | [] => true
  | a :: l => (!jsIsWs a || headNotWs l) && noWsRun l

/-- Boolean check that every whitespace character is a plain space. -/
def allWsSpace (l : List Char) : Bool :=
  l.all fun c => !jsIsWs c || c == ' '

/-- Boolean check that a string neither starts nor ends in whitespace. -/
def trimmedEnds (l : List Char) : Bool :=
  headNotWs l && headNotWs l.reverse

theorem length_dropWhile_le' (p : α → Bool) (l : List α) :
    (l.dropWhile p).length ≤ l.length := by
  induction l with
  | nil => simp [List.dropWhile]
  | cons a l ih =>
    rw [List.dropWhile_cons]
    by_cases h : p a
    · simp only [h, if_pos]
      exact Nat.le_succ_of_le ih
    · simp [h]

theorem headNotWs_dropWhile (l : List Char) :
    headNotWs (l.dropWhile jsIsWs) = true := by
  induction l with
  | nil => rfl
  | cons a l ih =>
    rw [List.dropWhile_cons]
    by_cases h : jsIsWs a
    · simpa [h] using ih
    · simp [h, headNotWs]

theorem getLast?_dropWhile (p : α → Bool) (l : List α) (h : l.dropWhile p ≠ []) :
    (l.dropWhile p).getLast? = l.getLast? := by
  induction l with
  | nil => exact absurd rfl h
  | cons a l ih =>
    rw [List.dropWhile_cons] at h ⊢
    by_cases hp : p a
    · simp only [hp, if_pos] at h ⊢
      rw [ih h]
      have hl : l ≠ [] := by
        intro he
        apply h
        simp [he, List.dropWhile]
      cases l with
      | nil => exact absurd rfl hl
      | cons b t => simp [List.getLast?_cons_cons]
    · simp [hp]

theorem afterMarkerCI_length (m : List Char) :
    ∀ s r : List Char, afterMarkerCI m s = some r → r.length + m.length = s.length := by
  induction m with
  | nil =>
    intro s r h
    simp [afterMarkerCI] at h
    simp [h]
  | cons c cs ih =>
    intro s r h
    cases s with
    | nil => simp [afterMarkerCI] at h
    | cons a t =>
      simp only [afterMarkerCI] at h
      by_cases hc : a.toLower = c
      · simp only [hc, if_pos] at h
        have := ih t r h
        simp [List.length_cons]
        omega
      · simp [hc] at h

theorem matchMarker_length (m : List Char) (hm : m ≠ []) (s r : List Char)
    (h : matchMarker m s = some r) : r.length < s.length := by
  unfold matchMarker at h
  split at h
  · exact absurd h (by simp)
  · rename_i u hma
    have hu : u.length + m.length = s.length := afterMarkerCI_length m s u hma
    have hmlen : 0 < m.length := List.length_pos.mpr hm
    split at h
    · rename_i r2 hdw
      have hr : r = r2.dropWhile jsIsWs := by
        cases h
        rfl
      have h1 : (r2.dropWhile jsIsWs).length ≤ r2.length := length_dropWhile_le' _ _
      have h2 : r2.length + 1 = (u.dropWhile jsIsWs).length := by rw [hdw]; rfl
      have h3 : (u.dropWhile jsIsWs).length ≤ u.length := length_dropWhile_le' _ _
      rw [hr]
      omega
    · exact absurd h (by simp)

theorem stripOneMarker_length (s t : List Char) (h : stripOneMarker s = some t) :
    t.length < s.length := by
  have hd : (s.dropWhile jsIsWs).length ≤ s.length := length_dropWhile_le' _ _
  simp only [stripOneMarker] at h
  cases h1 : matchMarker ['r', 'e'] (s.dropWhile jsIsWs) with
  | some u =>
    rw [h1] at h
    simp only [Option.orElse] at h
    cases h
    exact Nat.lt_of_lt_of_le (matchMarker_length _ (by simp) _ _ h1) hd
  | none =>
    rw [h1] at h
    simp only [Option.orElse] at h
    cases h2 : matchMarker ['f', 'w'] (s.dropWhile jsIsWs) with
    | some u =>
      rw [h2] at h
      simp only [Option.orElse] at h
      cases h
      exact Nat.lt_of_lt_of_le (matchMarker_length _ (by simp) _ _ h2) hd
    | none =>
      rw [h2] at h
      simp only [Option.orElse] at h
      exact Nat.lt_of_lt_of_le (matchMarker_length _ (by simp) _ _ h) hd

theorem stripMarkersFuel_eq_of_lt :
    ∀ fuelA fuelB (s : List Char), s.length < fuelA → s.length < fuelB →
      stripMarkersFuel fuelA s = stripMarkersFuel fuelB s := by
  intro fuelA
  induction fuelA with
  | zero => intro fuelB s hA; omega
  | succ fA ih =>
    intro fuelB s hA hB
    cases fuelB with
    | zero => omega
    | succ fB =>
      simp only [stripMarkersFuel]
      cases hso : stripOneMarker s with
      | none => rfl
      | some t =>
        have ht : t.length < s.length := stripOneMarker_length s t hso
        exact ih fB t (by omega) (by omega)

theorem stripMarkersFuel_fix :
    ∀ fuel (s : List Char), s.length < fuel →
      stripOneMarker (stripMarkersFuel fuel s) = none := by
  intro fuel
  induction fuel with
  | zero => intro s h; omega
  | succ f ih =>
    intro s h
    simp only [stripMarkersFuel]
    cases hso : stripOneMarker s with
    | none => exact hso
    | some t =>
      have ht : t.length < s.length := stripOneMarker_length s t hso
      exact ih t (by omega)

theorem stripMarkersList_fix (s : List Char) :
    stripOneMarker (stripMarkersList s) = none :=
  stripMarkersFuel_fix (s.length + 1) s (Nat.lt_succ_self _)

/-- C8: the marker-stripping loop of `normalizeSubject` terminates on
every input: a successful pass strictly shortens the string (so the
do/while loop is well-founded), an unsuccessful pass leaves it
unchanged and exits the loop, the loop reaches its exit condition
within `length + 1` passes, and giving it any more fuel changes
nothing (the iteration has converged). -/
theorem normalizeSubject_terminates_C8 :
    (∀ s t : List Char, stripOneMarker s = some t → t.length < s.length) ∧
    (∀ s : List Char, stripOneMarker (stripMarkersList s) = none) ∧
    (∀ (s : List Char) (fuel : Nat), s.length + 1 ≤ fuel →
      stripMarkersFuel fuel s = stripMarkersList s) :=
  ⟨stripOneMarker_length, stripMarkersList_fix, fun s fuel h =>
    stripMarkersFuel_eq_of_lt fuel (s.length + 1) s (by omega) (Nat.lt_succ_self _)⟩

/-- Witness for C8 at a concrete adversarial subject: one pass of the
loop on `"Re: Re: Re: x"` strips one marker and strictly shortens the
string, and the loop as a whole converges. -/
theorem normalizeSubject_terminates_C8_witness :
    stripOneMarker ("Re: Re: Re: x".data) = some ("Re: Re: x".data) ∧
    ("Re: Re: x".data).length < ("Re: Re: Re: x".data).length ∧
    stripOneMarker (stripMarkersList ("Re: Re: Re: x".data)) = none := by
  refine ⟨by decide, ?_, ?_⟩
  · exact normalizeSubject_terminates_C8.1 _ _ (by decide)
  · exact normalizeSubject_terminates_C8.2.1 _

theorem allWsSpace_cons (c : Char) (l : List Char) :
    allWsSpace (c :: l) = ((!jsIsWs c || c == ' ') && allWsSpace l) :=
  rfl

theorem allWsSpace_collapseAux (l : List Char) :
    ∀ b, allWsSpace (collapseWsAux b l) = true := by
  induction l with
  | nil => intro b; rfl
  | cons c rest ih =>
    intro b
    simp only [collapseWsAux]
    by_cases h : jsIsWs c
    · rw [if_pos h]
      cases b
      · rw [if_neg (by simp)]
        rw [allWsSpace_cons, ih true]
        decide
      · rw [if_pos rfl]
        exact ih true
    · rw [if_neg h]
      rw [allWsSpace_cons, ih false]
      simp [h]

theorem headNotWs_collapseAux_true (l : List Char) :
    headNotWs (collapseWsAux true l) = true := by
  induction l with
  | nil => rfl
  | cons c rest ih =>
    simp only [collapseWsAux]
    by_cases h : jsIsWs c
    · simpa [h] using ih
    · simp [h, headNotWs]

theorem noWsRun_collapseAux (l : List Char) :
    ∀ b, noWsRun (collapseWsAux b l) = true := by
  induction l with
  | nil => intro b; rfl
  | cons c rest ih =>
    intro b
    simp only [collapseWsAux]
    by_cases h : jsIsWs c
    · rw [if_pos h]
      cases b
      · rw [if_neg (by simp)]
        simp only [noWsRun]
        rw [headNotWs_collapseAux_true rest, ih true]
        decide
      · rw [if_pos rfl]
        exact ih true
    · rw [if_neg h]
      simp only [noWsRun]
      rw [ih false]
      simp [h]

theorem mem_of_mem_dropWhile' {p : α → Bool} :
    ∀ {l : List α} {x : α}, x ∈ l.dropWhile p → x ∈ l := by
  intro l
  induction l with
  | nil => intro x h; simpa [List.dropWhile] using h
  | cons a l ih =>
    intro x h
    rw [List.dropWhile_cons] at h
    by_cases hp : p a
    · rw [if_pos hp] at h
      exact List.mem_cons_of_mem a (ih h)
    · rw [if_neg hp] at h
      exact h

theorem noWsRun_iff_chain (l : List Char) :
    noWsRun l = true ↔
      List.Chain' (fun a b : Char => ¬(jsIsWs a = true ∧ jsIsWs b = true)) l := by
  induction l with
  | nil => simp [noWsRun]
  | cons a l ih =>
    rw [List.chain'_cons']
    simp only [noWsRun, Bool.and_eq_true, ih]
    constructor
    · rintro ⟨h1, h2⟩
      refine ⟨fun y hy => ?_, h2⟩
      rintro ⟨ha, hb⟩
      rw [Option.mem_def] at hy
      have hh : headNotWs l = false := by simp [headNotWs, hy, hb]
      rw [ha, hh] at h1
      simp at h1
    · rintro ⟨h1, h2⟩
      refine ⟨?_, h2⟩
      by_cases ha : jsIsWs a
      · cases hl : l.head? with
        | none => simp [headNotWs, hl]
        | some y =>
          have hy := h1 y (by rw [Option.mem_def, hl])
          by_cases hw : jsIsWs y
          · exact absurd ⟨ha, hw⟩ hy
          · simp [headNotWs, hl, hw]
      · simp [ha]

theorem chain_dropWhile {R : Char → Char → Prop} (p : Char → Bool) (l : List Char)
    (h : List.Chain' R l) : List.Chain' R (l.dropWhile p) := by
  induction l with
  | nil => simpa using h
  | cons a l ih =>
    rw [List.dropWhile_cons]
    by_cases hp : p a
    · rw [if_pos hp]
      exact ih h.tail
    · rw [if_neg hp]
      exact h

theorem chain_reverse_symm {R : Char → Char → Prop} (hsymm : ∀ a b, R a b → R b a)
    (l : List Char) (h : List.Chain' R l) : List.Chain' R l.reverse := by
  rw [List.chain'_reverse]
  exact h.imp fun a b hab => hsymm a b hab

theorem noWsRun_jsTrim (l : List Char) (h : noWsRun l = true) :
    noWsRun (jsTrimChars l) = true := by
  have hsymm : ∀ a b : Char, ¬(jsIsWs a = true ∧ jsIsWs b = true) →
      ¬(jsIsWs b = true ∧ jsIsWs a = true) := by
    rintro a b hx ⟨h1, h2⟩
    exact hx ⟨h2, h1⟩
  rw [noWsRun_iff_chain] at h ⊢
  unfold jsTrimChars
  apply chain_reverse_symm hsymm
  apply chain_dropWhile
  apply chain_reverse_symm hsymm
  exact chain_dropWhile _ _ h

theorem allWsSpace_jsTrim (l : List Char) (h : allWsSpace l = true) :
    allWsSpace (jsTrimChars l) = true := by
  rw [allWsSpace, List.all_eq_true] at h ⊢
  intro x hx
  apply h
  unfold jsTrimChars at hx
  rw [List.mem_reverse] at hx
  have hx2 := mem_of_mem_dropWhile' hx
  rw [List.mem_reverse] at hx2
  exact mem_of_mem_dropWhile' hx2

theorem headNotWs_rev_dropWhile_rev (u : List Char) (hu : headNotWs u = true) :
    headNotWs ((u.reverse.dropWhile jsIsWs).reverse) = true := by
  unfold headNotWs
  rw [List.head?_reverse]
  cases hne : u.reverse.dropWhile jsIsWs with
  | nil => simp
  | cons c t =>
    rw [← hne]
    rw [getLast?_dropWhile _ _ (by rw [hne]; simp), List.getLast?_reverse]
    unfold headNotWs at hu
    exact hu

theorem trimmedEnds_jsTrim (l : List Char) : trimmedEnds (jsTrimChars l) = true := by
  unfold trimmedEnds jsTrimChars
  rw [Bool.and_eq_true]
  refine ⟨headNotWs_rev_dropWhile_rev _ (headNotWs_dropWhile l), ?_⟩
  rw [List.reverse_reverse]
  exact headNotWs_dropWhile _

/-- C7: `normalizeSubject` repeatedly strips a leading case-insensitive
`re:` / `fw:` / `fwd:` marker (with optional surrounding whitespace)
until no marker remains (the stripping loop ends at a fixpoint of the
single-pass strip), then collapses internal whitespace runs to single
spaces and trims (the result has only plain spaces as whitespace, no
two adjacent whitespace characters, and no whitespace at either end);
in particular on `"Re: RE: Fwd: Quarterly Report"` it yields
`"Quarterly Report"`. -/
theorem normalizeSubject_spec_C7 :
    normalizeSubject "Re: RE: Fwd: Quarterly Report" = "Quarterly Report" ∧
    (∀ s : String, stripOneMarker (stripMarkersList (jsTrimChars s.data)) = none) ∧
    (∀ s : String,
      allWsSpace (normalizeSubject s).data = true ∧
      noWsRun (normalizeSubject s).data = true ∧
      trimmedEnds (normalizeSubject s).data = true) := by
  refine ⟨by decide, fun s => stripMarkersList_fix _, fun s => ?_⟩
  unfold normalizeSubject
  by_cases hs : s = ""
  · rw [if_pos hs]
    exact ⟨by decide, by decide, by decide⟩
  · rw [if_neg hs]
    refine ⟨?_, ?_, ?_⟩
    · exact allWsSpace_jsTrim _ (allWsSpace_collapseAux _ false)
    · exact noWsRun_jsTrim _ (noWsRun_collapseAux _ false)
    · exact trimmedEnds_jsTrim _

theorem insertBy_perm (le : α → α → Bool) (a : α) (l : List α) :
    List.Perm (insertBy le a l) (a :: l) := by
  induction l with
  | nil => exact List.Perm.refl _
  | cons x xs ih =>
    simp only [insertBy]
    by_cases h : le a x = true
    · rw [if_pos h]
    · rw [if_neg h]
      exact List.Perm.trans (List.Perm.cons x ih) (List.Perm.swap a x xs)

theorem sortBy_perm (le : α → α → Bool) (l : List α) : List.Perm (sortBy le l) l := by
  induction l with
  | nil => exact List.Perm.refl _
  | cons x xs ih =>
    simp only [sortBy]
    exact List.Perm.trans (insertBy_perm le x (sortBy le xs)) (List.Perm.cons x ih)

theorem insertBy_sorted_date (a : Email) (l : List Email)
    (h : List.Sorted (fun x y : Email => x.sentAt ≤ y.sentAt) l) :
    List.Sorted (fun x y : Email => x.sentAt ≤ y.sentAt)
      (insertBy (fun x y => decide (x.sentAt ≤ y.sentAt)) a l) := by
  induction l with
  | nil => simp [insertBy]
  | cons x xs ih =>
    simp only [insertBy]
    by_cases hle : a.sentAt ≤ x.sentAt
    · rw [if_pos (by simpa using hle)]
      rw [List.sorted_cons]
      refine ⟨?_, h⟩
      intro b hb
      rcases List.mem_cons.mp hb with h1 | h1
      · rw [h1]
        exact hle
      · exact le_trans hle ((List.sorted_cons.mp h).1 b h1)
    · rw [if_neg (by simpa using hle)]
      rw [List.sorted_cons] at h ⊢
      obtain ⟨hx, hxs⟩ := h
      refine ⟨?_, ih hxs⟩
      intro b hb
      have hmem := (insertBy_perm _ a xs).mem_iff.mp hb
      rcases List.mem_cons.mp hmem with h1 | h1
      · rw [h1]
        exact le_of_not_le hle
      · exact hx b h1

theorem sortByDate_sorted (l : List Email) :
    List.Sorted (fun x y : Email => x.sentAt ≤ y.sentAt) (sortByDate l) := by
  induction l with
  | nil => simp [sortByDate, sortBy]
  | cons x xs ih =>
    simp only [sortByDate, sortBy] at ih ⊢
    exact insertBy_sorted_date x _ ih

theorem filter_insertBy_date (t : Int) (a : Email) (l : List Email) :
    (insertBy (fun x y => decide (x.sentAt ≤ y.sentAt)) a l).filter (fun e => e.sentAt == t) =
      if a.sentAt == t then a :: l.filter (fun e => e.sentAt == t)
      else l.filter (fun e => e.sentAt == t) := by
  induction l with
  | nil =>
    simp only [insertBy, List.filter]
    by_cases h : a.sentAt == t
    · simp [h]
    · simp [h]
  | cons x xs ih =>
    simp only [insertBy]
    by_cases hle : a.sentAt ≤ x.sentAt
    · rw [if_pos (by simpa using hle)]
      rw [List.filter_cons]
    · rw [if_neg (by simpa using hle)]
      rw [List.filter_cons, ih]
      by_cases hat : a.sentAt == t
      · have hxt : (x.sentAt == t) = false := by
          have hlt : x.sentAt < a.sentAt := lt_of_not_ge hle
          have hae : a.sentAt = t := by simpa using hat
          simp only [beq_eq_false_iff_ne, ne_eq]
          omega
        simp [hat, hxt, List.filter_cons]
      · simp [hat, List.filter_cons]

theorem sortByDate_filter (l : List Email) (t : Int) :
    (sortByDate l).filter (fun e => e.sentAt == t) = l.filter (fun e => e.sentAt == t) := by
  induction l with
  | nil => rfl
  | cons x xs ih =>
    simp only [sortByDate, sortBy] at ih ⊢
    rw [filter_insertBy_date, ih, List.filter_cons]

theorem specEntryAt_cons (m : Email) (rest : List Email) (i : Nat) :
    specEntryAt (m :: rest) (i + 1) = specEntryAt rest i := by
  unfold specEntryAt
  rw [List.getElem?_cons_succ, List.drop_succ_cons]

theorem metricsSpecPerClient_cons (m : Email) (rest : List Email) :
    metricsSpecPerClient (m :: rest) =
      (if m.direction = Direction.client then
        [match rest.find? (fun x => x.direction == Direction.staff) with
          | none =>
            ({ clientMessageId := m.id, staffReplyId := none, responseSeconds := none } : Metric)
          | some reply =>
            { clientMessageId := m.id
              staffReplyId := some reply.id
              responseSeconds := some (max 0 (Int.fdiv (reply.sentAt - m.sentAt) 1000)) }]
      else []) ++ metricsSpecPerClient rest := by
  unfold metricsSpecPerClient
  rw [List.length_cons, List.range_succ_eq_map, List.filterMap_cons, List.filterMap_map]
  have hcongr :
      List.filterMap (specEntryAt (m :: rest) ∘ Nat.succ) (List.range rest.length) =
        List.filterMap (specEntryAt rest) (List.range rest.length) :=
    List.filterMap_congr fun i _ => specEntryAt_cons m rest i
  rw [hcongr]
  by_cases hdir : m.direction = Direction.client
  · have h0 : specEntryAt (m :: rest) 0 =
        some
          (match rest.find? (fun x => x.direction == Direction.staff) with
            | none =>
              ({ clientMessageId := m.id, staffReplyId := none, responseSeconds := none } : Metric)
            | some reply =>
              { clientMessageId := m.id
                staffReplyId := some reply.id
                responseSeconds := some (max 0 (Int.fdiv (reply.sentAt - m.sentAt) 1000)) }) := by
      unfold specEntryAt
      rw [List.getElem?_cons_zero]
      simp only [hdir, if_pos]
      rw [List.drop_succ_cons, List.drop_zero]
    rw [h0]
    simp [hdir]
  · have h0 : specEntryAt (m :: rest) 0 = none := by
      unfold specEntryAt
      rw [List.getElem?_cons_zero]
      simp [hdir]
    rw [h0]
    simp [hdir]

theorem metricsSpec_eq_loop (s : List Email) : metricsSpecPerClient s = perClientLoop s := by
  induction s with
  | nil => rfl
  | cons m rest ih =>
    rw [metricsSpecPerClient_cons, ih]
    by_cases hdir : m.direction = Direction.client
    · simp [perClientLoop, hdir]
    · simp [perClientLoop, hdir]

theorem filterMap_filter_isSome (l : List Metric) :
    (l.filter fun m => m.responseSeconds.isSome).filterMap (fun m => m.responseSeconds) =
      l.filterMap fun m => m.responseSeconds := by
  induction l with
  | nil => rfl
  | cons a l ih =>
    by_cases h : a.responseSeconds.isSome
    · rw [List.filter_cons, if_pos (by simpa using h), List.filterMap_cons, List.filterMap_cons]
      cases ha : a.responseSeconds with
      | none => rw [ha] at h; simp at h
      | some v => simp [ih]
    · rw [List.filter_cons, if_neg (by simpa using h), List.filterMap_cons]
      cases ha : a.responseSeconds with
      | none => simp [ih]
      | some v => rw [ha] at h; simp at h

theorem length_filter_isSome (l : List Metric) :
    (l.filter fun m => m.responseSeconds.isSome).length =
      (l.filterMap fun m => m.responseSeconds).length := by
  induction l with
  | nil => rfl
  | cons a l ih =>
    by_cases h : a.responseSeconds.isSome
    · rw [List.filter_cons, if_pos (by simpa using h), List.filterMap_cons]
      cases ha : a.responseSeconds with
      | none => rw [ha] at h; simp at h
      | some v => simp [ih]
    · rw [List.filter_cons, if_neg (by simpa using h), List.filterMap_cons]
      cases ha : a.responseSeconds with
      | none => simp [ih]
      | some v => rw [ha] at h; simp at h

theorem jsRound_eq_round (t : ℤ) (n : ℕ) (h : 0 < n) :
    jsRound t n = round ((t : ℚ) / (n : ℚ)) := by
  rw [round_eq]
  have hstep : (t : ℚ) / (n : ℚ) + 1 / 2 = ((2 * t + n : ℤ) : ℚ) / ((2 * n : ℕ) : ℚ) := by
    have hn : ((n : ℚ)) ≠ 0 := by positivity
    push_cast
    field_simp
    ring
  rw [hstep, Rat.floor_intCast_div_natCast]
  unfold jsRound
  push_cast
  ring_nf

/-- C1: `computeResponseMetrics` sorts the messages ascending by sent
time (a permutation of the input, sorted, and stable: messages with any
given sent time keep their original relative order), its `perClient`
list is exactly the claim-side description (one entry per
client-direction message of the sorted list pairing it with the first
subsequent staff-direction message, `responseSeconds = max(0, floor of
the difference in seconds)`, nulls when no staff message follows), and
`averageSeconds` is the mean of the non-null `responseSeconds` rounded
to the nearest whole second (halves up), or null when no client message
received a reply. -/
theorem computeResponseMetrics_spec_C1 (emails : List Email) :
    List.Perm (sortByDate emails) emails ∧
    List.Sorted (fun a b : Email => a.sentAt ≤ b.sentAt) (sortByDate emails) ∧
    (∀ t : Int, (sortByDate emails).filter (fun e => e.sentAt == t) =
      emails.filter (fun e => e.sentAt == t)) ∧
    (computeResponseMetrics emails).perClient = metricsSpecPerClient (sortByDate emails) ∧
    (computeResponseMetrics emails).averageSeconds =
      specAverage (computeResponseMetrics emails).perClient := by
  refine ⟨sortBy_perm _ _, sortByDate_sorted _, fun t => sortByDate_filter _ _, ?_, ?_⟩
  · show perClientLoop (sortByDate emails) = metricsSpecPerClient (sortByDate emails)
    exact (metricsSpec_eq_loop _).symm
  · show (computeResponseMetrics emails).averageSeconds =
      specAverage (perClientLoop (sortByDate emails))
    unfold computeResponseMetrics specAverage
    simp only
    rw [filterMap_filter_isSome]
    by_cases hz :
        ((perClientLoop (sortByDate emails)).filter fun m => m.responseSeconds.isSome).length = 0
    · rw [if_pos hz]
      have : ((perClientLoop (sortByDate emails)).filterMap fun m => m.responseSeconds) = [] :=
        List.length_eq_zero.mp (by rw [← length_filter_isSome]; exact hz)
      rw [this]
      simp
    · rw [if_neg hz]
      have hne : ((perClientLoop (sortByDate emails)).filterMap fun m => m.responseSeconds) ≠ [] := by
        intro he
        apply hz
        rw [length_filter_isSome, he]
        rfl
      rw [if_neg hne]
      rw [length_filter_isSome] at hz ⊢
      rw [jsRound_eq_round _ _ (Nat.pos_of_ne_zero hz)]

/-- The thread grouping key `upsertStep` resolves for a raw message
(`threadKeyFor` applied to the normalized sender/recipient/cc lists,
exactly as the ingestion loop computes it). -/
def resolvedKey (e : RawMsg) : String :=
  threadKeyFor e.conversationId e.subject (safeEmail e.sender) (e.toAddr.map safeEmail)
    (e.cc.map safeEmail)

/-- C5: a message whose timestamp is unparseable is skipped entirely:
the per-message step leaves the store and the accumulated result
untouched (no Email, no Thread creation or update, no created id, no
touched id, and — being a total function — no error), and ingesting a
batch starting with such a message equals ingesting the rest of the
batch. -/
theorem invalid_timestamp_skip_C5 (sd q : String) (db : Db) (res : IngestResult) (e : RawMsg)
    (h : e.sentAt = none) :
    upsertStep sd q (db, res) e = (db, res) ∧
    ∀ rest : List RawMsg,
      upsertEmailsAndThreads sd q db (e :: rest) = upsertEmailsAndThreads sd q db rest := by
  have h1 : ∀ r : IngestResult, upsertStep sd q (db, r) e = (db, r) := by
    intro r
    unfold upsertStep
    rw [h]
  refine ⟨h1 res, fun rest => ?_⟩
  unfold upsertEmailsAndThreads
  rw [List.foldl_cons, h1]

/-- Witness for C5: a concrete unparseable-timestamp message is a
no-op for the step and drops out of a batch. -/
theorem invalid_timestamp_skip_C5_witness :
    upsertStep "futuregate.info" "q" (Db.empty, ⟨[], []⟩)
        ⟨"mX", "", "Hello", "a@b.c", [], [], none, "snip", "", ""⟩ =
      (Db.empty, ⟨[], []⟩) ∧
    upsertEmailsAndThreads "futuregate.info" "q" Db.empty
        [⟨"mX", "", "Hello", "a@b.c", [], [], none, "snip", "", ""⟩] =
      upsertEmailsAndThreads "futuregate.info" "q" Db.empty [] := by
  have h := invalid_timestamp_skip_C5 "futuregate.info" "q" Db.empty ⟨[], []⟩
    ⟨"mX", "", "Hello", "a@b.c", [], [], none, "snip", "", ""⟩ rfl
  exact ⟨h.1, h.2 []⟩

/-- Counterexample to C2 as stated: a message whose non-empty message
identifier matches a stored Email, but whose timestamp is unparseable,
is skipped *before* the dedup branch — its existing thread id is NOT
added to the touched set (and with an empty identifier and unparseable
timestamp nothing would be created either). -/
def exDupEmail : Email :=
  ⟨7, "q", 7, "m1", "", "", "", [], [], 0, "", "", "", Direction.client⟩

/-- Store holding the one email the counterexample message duplicates. -/
def exDupDb : Db :=
  ⟨[exDupEmail], [], 8⟩

/-- The counterexample message: duplicate identifier `"m1"`, timestamp
unparseable. -/
def exDupMsg : RawMsg :=
  ⟨"m1", "", "", "", [], [], none, "", "", ""⟩

/-- Counterexample for C2: the incoming message's non-empty identifier
equals the identifier of an Email already in the store, yet the
returned touched-thread set stays empty, contradicting the claim that
the existing email's thread id is "still added". -/
theorem dedup_counterexample_C2 :
    jsTrim exDupMsg.messageId ≠ "" ∧
    exDupEmail ∈ exDupDb.emails ∧
    exDupEmail.messageId = jsTrim exDupMsg.messageId ∧
    (upsertStep "futuregate.info" "q" (exDupDb, ⟨[], []⟩) exDupMsg).2.threadIdsTouched = [] := by
  refine ⟨by decide, by decide, by decide, ?_⟩
  rfl

/-- C2 (amended): for every incoming message with a *parseable*
timestamp — unparseable-timestamp messages are skipped before the
dedup check — (a) a non-empty trimmed identifier matching any stored
Email makes the dedup lookup succeed, (b) when the dedup lookup
succeeds, the found Email is a stored one with the same identifier, no
store mutation at all happens, and the found email's thread id is added
to the touched set; and (c) a message with an empty identifier skips
dedup and always appends a fresh Email record (even if an identical
message was ingested before). -/
theorem dedup_amended_C2 (sd q : String) (db : Db) (res : IngestResult) (e : RawMsg)
    (ts : Int) (h : e.sentAt = some ts) :
    (∀ x ∈ db.emails, x.messageId = jsTrim e.messageId → jsTrim e.messageId ≠ "" →
      ∃ already, dedupFind db (jsTrim e.messageId) = some already) ∧
    (∀ already, dedupFind db (jsTrim e.messageId) = some already →
      already ∈ db.emails ∧ already.messageId = jsTrim e.messageId ∧
      upsertStep sd q (db, res) e =
        (db, { res with threadIdsTouched := touchAdd res.threadIdsTouched already.threadId })) ∧
    (jsTrim e.messageId = "" →
      ∃ new, (upsertStep sd q (db, res) e).1.emails = db.emails ++ [new] ∧
        new.messageId = "" ∧
        (upsertStep sd q (db, res) e).2.emailIdsCreated = res.emailIdsCreated ++ [new.id]) := by
  refine ⟨?_, ?_, ?_⟩
  · intro x hx hid hne
    have hs : (List.find? (fun y =>
        y.messageId != "" && jsTrim e.messageId != "" && y.messageId == jsTrim e.messageId)
        db.emails).isSome = true := by
      rw [List.find?_isSome]
      refine ⟨x, hx, ?_⟩
      simp [hid, hne]
    rcases Option.isSome_iff_exists.mp hs with ⟨already, ha⟩
    exact ⟨already, ha⟩
  · intro already hfind
    have hmem : already ∈ db.emails := List.mem_of_find?_eq_some hfind
    have hpred := List.find?_some hfind
    simp only [Bool.and_eq_true, beq_iff_eq, bne_iff_ne, ne_eq] at hpred
    refine ⟨hmem, hpred.2, ?_⟩
    unfold upsertStep
    rw [h]
    simp only
    rw [hfind]
  · intro hmid
    have hnone : dedupFind db (jsTrim e.messageId) = none := by
      unfold dedupFind
      rw [List.find?_eq_none]
      intro x _
      simp [hmid]
    unfold upsertStep
    rw [h]
    simp only
    rw [hnone]
    cases hth : db.threads.find? (fun t =>
        t.key == threadKeyFor e.conversationId e.subject (safeEmail e.sender)
          (List.map safeEmail e.toAddr) (List.map safeEmail e.cc) && t.queryId == q) with
    | none =>
      refine ⟨_, rfl, ?_, rfl⟩
      exact hmid
    | some thread =>
      refine ⟨_, rfl, ?_, rfl⟩
      exact hmid

/-- A duplicate of `exDupEmail`'s identifier with a parseable
timestamp, for the amended-C2 witness. -/
def exDupMsg2 : RawMsg :=
  ⟨"m1", "", "", "", [], [], some 5, "", "", ""⟩

/-- Witness for the amended C2 at concrete inputs: the duplicate is not
re-created, the store is untouched, and the stored email's thread id is
added to the touched set. -/
theorem dedup_amended_C2_witness :
    upsertStep "futuregate.info" "q" (exDupDb, ⟨[], []⟩) exDupMsg2 =
      (exDupDb, ⟨[], touchAdd [] exDupEmail.threadId⟩) :=
  ((dedup_amended_C2 "futuregate.info" "q" exDupDb ⟨[], []⟩ exDupMsg2 5 rfl).2.1 exDupEmail
    (by decide)).2.2

/-- C4: for a non-duplicate message with a parseable timestamp, the
thread lookup only ever returns a stored thread whose key equals the
message's resolved key AND whose `queryId` equals the ingesting query's
id; and when every stored thread with that key belongs to a different
query, none is reused — a brand-new thread with that key and the
current query id is appended instead. -/
theorem thread_lookup_scoped_C4 (sd q : String) (db : Db) (res : IngestResult) (e : RawMsg)
    (ts : Int) (h : e.sentAt = some ts)
    (hdup : dedupFind db (jsTrim e.messageId) = none) :
    (∀ th, db.threads.find? (fun t => t.key == resolvedKey e && t.queryId == q) = some th →
      th ∈ db.threads ∧ th.key = resolvedKey e ∧ th.queryId = q) ∧
    ((∀ th ∈ db.threads, th.key = resolvedKey e → th.queryId ≠ q) →
      ∃ nt, (upsertStep sd q (db, res) e).1.threads = db.threads ++ [nt] ∧
        nt.key = resolvedKey e ∧ nt.queryId = q ∧ nt.id = db.nextId) := by
  constructor
  · intro th hfind
    have hmem : th ∈ db.threads := List.mem_of_find?_eq_some hfind
    have hpred := List.find?_some hfind
    simp only [Bool.and_eq_true, beq_iff_eq] at hpred
    exact ⟨hmem, hpred.1, hpred.2⟩
  · intro hall
    have hnone : db.threads.find? (fun t =>
        t.key == threadKeyFor e.conversationId e.subject (safeEmail e.sender)
          (List.map safeEmail e.toAddr) (List.map safeEmail e.cc) && t.queryId == q) = none := by
      rw [List.find?_eq_none]
      intro t ht
      simp only [Bool.and_eq_true, beq_iff_eq, not_and]
      intro hk
      exact hall t ht hk
    unfold upsertStep
    rw [h]
    simp only
    rw [hdup, hnone]
    exact ⟨_, rfl, rfl, rfl, rfl⟩

/-- Fixture message for the C4 witness: no conversation id, so the key
is the fallback key; the store holds a thread with the same key but a
different query id. -/
def exScopeMsg : RawMsg :=
  ⟨"mZ", "cv9", "Topic", "a@x.com", [], [], some 50, "", "", ""⟩

/-- A stored thread with the same grouping key as `exScopeMsg` but
owned by another query. -/
def exOtherThread : Thread :=
  ⟨3, "otherQuery", "conv:cv9", "cv9", "Topic", ["a@x.com"], 1, 1⟩

/-- Store for the C4 witness. -/
def exScopeDb : Db :=
  ⟨[], [exOtherThread], 4⟩

/-- Witness for C4 at concrete inputs: the same-key thread of the other
query is not reused; a fresh thread with the resolved key and the
current query id is appended. -/
theorem thread_lookup_scoped_C4_witness :
    ∃ nt, (upsertStep "futuregate.info" "q" (exScopeDb, ⟨[], []⟩) exScopeMsg).1.threads =
        exScopeDb.threads ++ [nt] ∧
      nt.key = resolvedKey exScopeMsg ∧ nt.queryId = "q" ∧ nt.id = exScopeDb.nextId :=
  (thread_lookup_scoped_C4 "futuregate.info" "q" exScopeDb ⟨[], []⟩ exScopeMsg 50 rfl
    (by decide)).2 (by decide)

theorem upsertStep_emails_shape (sd q : String) (st : Db × IngestResult) (e : RawMsg) :
    (upsertStep sd q st e).1.emails = st.1.emails ∨
    ∃ em, (upsertStep sd q st e).1.emails = st.1.emails ++ [em] ∧
      em.snippet = takeStr 500 e.snippet := by
  unfold upsertStep
  cases hts : e.sentAt with
  | none => exact Or.inl rfl
  | some ts =>
    simp only
    cases hd : dedupFind st.1 (jsTrim e.messageId) with
    | some already => exact Or.inl rfl
    | none =>
      cases hth : st.1.threads.find? (fun t =>
          t.key == threadKeyFor e.conversationId e.subject (safeEmail e.sender)
            (List.map safeEmail e.toAddr) (List.map safeEmail e.cc) && t.queryId == q) with
      | none => exact Or.inr ⟨_, rfl, rfl⟩
      | some thread => exact Or.inr ⟨_, rfl, rfl⟩

theorem snippet_bound_step (sd q : String) (st : Db × IngestResult) (e : RawMsg)
    (h : ∀ x ∈ st.1.emails, x.snippet.data.length ≤ 500) :
    ∀ x ∈ (upsertStep sd q st e).1.emails, x.snippet.data.length ≤ 500 := by
  rcases upsertStep_emails_shape sd q st e with hsh | ⟨em, hsh, hsn⟩
  · rw [hsh]
    exact h
  · rw [hsh]
    intro x hx
    rcases List.mem_append.mp hx with h1 | h1
    · exact h x h1
    · have hxe : x = em := by simpa using h1
      rw [hxe, hsn]
      unfold takeStr
      calc (String.mk (e.snippet.data.take 500)).data.length
          = (e.snippet.data.take 500).length := rfl
        _ ≤ 500 := by rw [List.length_take]; omega

theorem snippet_bound_fold (sd q : String) (msgs : List RawMsg) :
    ∀ st : Db × IngestResult, (∀ x ∈ st.1.emails, x.snippet.data.length ≤ 500) →
      ∀ x ∈ (msgs.foldl (upsertStep sd q) st).1.emails, x.snippet.data.length ≤ 500 := by
  induction msgs with
  | nil => intro st h; exact h
  | cons e rest ih =>
    intro st h
    rw [List.foldl_cons]
    exact ih _ (snippet_bound_step sd q st e h)

/-- C10: every Email record created by ingestion stores a snippet of at
most 500 characters — after any sequence of ingestion calls on the
fresh store, every stored email's snippet length is at most 500. -/
theorem snippet_bounded_C10 (sd : String) (batches : List (String × List RawMsg)) :
    ∀ em ∈ (applyBatches sd batches).emails, em.snippet.data.length ≤ 500 := by
  unfold applyBatches
  suffices hgen : ∀ db : Db, (∀ x ∈ db.emails, x.snippet.data.length ≤ 500) →
      ∀ em ∈ (batches.foldl (fun db b => (upsertEmailsAndThreads sd b.1 db b.2).1) db).emails,
        em.snippet.data.length ≤ 500 by
    exact hgen Db.empty (by intro x hx; simp [Db.empty] at hx)
  induction batches with
  | nil => intro db h; exact h
  | cons b rest ih =>
    intro db h
    rw [List.foldl_cons]
    exact ih _ (snippet_bound_fold sd b.1 b.2 (db, ⟨[], []⟩) h)

/-- A raw message whose snippet is longer than 500 characters, for the
C10 witness. -/
def exLongMsg : RawMsg :=
  ⟨"mL", "cL", "S", "a@x.com", [], [], some 9, String.mk (List.replicate 600 'x'), "", ""⟩

/-- Witness for C10: ingesting a 600-character snippet stores an email
whose snippet is bounded by 500 characters. -/
theorem snippet_bounded_C10_witness :
    exLongMsg.snippet.data.length = 600 ∧
    ∀ em ∈ (applyBatches "futuregate.info" [("q", [exLongMsg])]).emails,
      em.snippet.data.length ≤ 500 :=
  ⟨by rw [show exLongMsg.snippet.data = List.replicate 600 'x' from rfl]
      exact List.length_replicate 600 'x',
    fun em hm => snippet_bounded_C10 "futuregate.info" [("q", [exLongMsg])] em hm⟩

theorem upsertStep_emails_mono (sd q : String) (st : Db × IngestResult) (e : RawMsg) :
    ∀ x ∈ st.1.emails, x ∈ (upsertStep sd q st e).1.emails := by
  intro x hx
  rcases upsertStep_emails_shape sd q st e with hsh | ⟨em, hsh, _⟩
  · rw [hsh]
    exact hx
  · rw [hsh]
    exact List.mem_append_left _ hx

theorem foldl_emails_mono (sd q : String) (msgs : List RawMsg) :
    ∀ st : Db × IngestResult, ∀ x ∈ st.1.emails,
      x ∈ (msgs.foldl (upsertStep sd q) st).1.emails := by
  induction msgs with
  | nil => intro st x hx; exact hx
  | cons m rest ih =>
    intro st x hx
    rw [List.foldl_cons]
    exact ih _ x (upsertStep_emails_mono sd q st m x hx)

theorem upsertStep_match_exists (sd q : String) (st : Db × IngestResult) (e : RawMsg)
    (ts : Int) (hts : e.sentAt = some ts) (hid : jsTrim e.messageId ≠ "") :
    ∃ x ∈ (upsertStep sd q st e).1.emails, x.messageId = jsTrim e.messageId := by
  unfold upsertStep
  rw [hts]
  simp only
  cases hd : dedupFind st.1 (jsTrim e.messageId) with
  | some already =>
    have hpred := List.find?_some hd
    simp only [Bool.and_eq_true, beq_iff_eq, bne_iff_ne, ne_eq] at hpred
    exact ⟨already, List.mem_of_find?_eq_some hd, hpred.2⟩
  | none =>
    cases hth : st.1.threads.find? (fun t =>
        t.key == threadKeyFor e.conversationId e.subject (safeEmail e.sender)
          (List.map safeEmail e.toAddr) (List.map safeEmail e.cc) && t.queryId == q) with
    | none =>
      refine ⟨_, List.mem_append_right _ (List.mem_singleton_self _), rfl⟩
    | some thread =>
      refine ⟨_, List.mem_append_right _ (List.mem_singleton_self _), rfl⟩

theorem run1_matches (sd q : String) (msgs : List RawMsg) :
    ∀ st : Db × IngestResult, ∀ e ∈ msgs, ∀ ts : Int, e.sentAt = some ts →
      jsTrim e.messageId ≠ "" →
      ∃ x ∈ (msgs.foldl (upsertStep sd q) st).1.emails, x.messageId = jsTrim e.messageId := by
  induction msgs with
  | nil => intro st e he; exact absurd he (List.not_mem_nil e)
  | cons m rest ih =>
    intro st e he ts hts hid
    rw [List.foldl_cons]
    rcases List.mem_cons.mp he with h1 | h1
    · subst h1
      obtain ⟨x, hx, hxid⟩ := upsertStep_match_exists sd q st e ts hts hid
      exact ⟨x, foldl_emails_mono sd q rest _ x hx, hxid⟩
    · exact ih _ e h1 ts hts hid

theorem upsertStep_dup (sd q : String) (st : Db × IngestResult) (e : RawMsg) (ts : Int)
    (hts : e.sentAt = some ts)
    (hex : ∃ x ∈ st.1.emails, x.messageId = jsTrim e.messageId)
    (hid : jsTrim e.messageId ≠ "") :
    ∃ already : Email, upsertStep sd q st e =
      (st.1, { st.2 with threadIdsTouched := touchAdd st.2.threadIdsTouched already.threadId }) := by
  obtain ⟨x, hx, hxid⟩ := hex
  have hs : (dedupFind st.1 (jsTrim e.messageId)).isSome = true := by
    unfold dedupFind
    rw [List.find?_isSome]
    refine ⟨x, hx, ?_⟩
    simp [hxid, hid]
  obtain ⟨already, hfind⟩ := Option.isSome_iff_exists.mp hs
  refine ⟨already, ?_⟩
  unfold upsertStep
  rw [hts]
  simp only
  rw [hfind]

theorem foldl_dup_all (sd q : String) (msgs : List RawMsg) :
    ∀ st : Db × IngestResult,
      (∀ e ∈ msgs, e.sentAt.isSome = true ∧ jsTrim e.messageId ≠ "" ∧
        ∃ x ∈ st.1.emails, x.messageId = jsTrim e.messageId) →
      (msgs.foldl (upsertStep sd q) st).1 = st.1 ∧
      (msgs.foldl (upsertStep sd q) st).2.emailIdsCreated = st.2.emailIdsCreated := by
  induction msgs with
  | nil => intro st _; exact ⟨rfl, rfl⟩
  | cons m rest ih =>
    intro st hall
    obtain ⟨hts, hid, hex⟩ := hall m (List.mem_cons_self m rest)
    obtain ⟨ts, hts'⟩ := Option.isSome_iff_exists.mp hts
    obtain ⟨already, hstep⟩ := upsertStep_dup sd q st m ts hts' hex hid
    rw [List.foldl_cons, hstep]
    have hrest := ih (st.1,
      { st.2 with threadIdsTouched := touchAdd st.2.threadIdsTouched already.threadId })
      (fun e he => hall e (List.mem_cons_of_mem m he))
    exact ⟨hrest.1, hrest.2⟩

theorem touchAdd_ne_nil (l : List Nat) (x : Nat) : touchAdd l x ≠ [] := by
  unfold touchAdd
  by_cases h : l.contains x
  · rw [if_pos h]
    intro he
    rw [he] at h
    simp at h
  · rw [if_neg h]
    simp

theorem upsertStep_touched_ne (sd q : String) (st : Db × IngestResult) (e : RawMsg) (ts : Int)
    (hts : e.sentAt = some ts) :
    (upsertStep sd q st e).2.threadIdsTouched ≠ [] := by
  unfold upsertStep
  rw [hts]
  simp only
  cases hd : dedupFind st.1 (jsTrim e.messageId) with
  | some already => exact touchAdd_ne_nil _ _
  | none =>
    cases hth : st.1.threads.find? (fun t =>
        t.key == threadKeyFor e.conversationId e.subject (safeEmail e.sender)
          (List.map safeEmail e.toAddr) (List.map safeEmail e.cc) && t.queryId == q) with
    | none => exact touchAdd_ne_nil _ _
    | some thread => exact touchAdd_ne_nil _ _

theorem upsertStep_touched_keep (sd q : String) (st : Db × IngestResult) (e : RawMsg)
    (h : st.2.threadIdsTouched ≠ []) :
    (upsertStep sd q st e).2.threadIdsTouched ≠ [] := by
  cases hts : e.sentAt with
  | none =>
    have : upsertStep sd q st e = st := by
      unfold upsertStep
      rw [hts]
    rw [this]
    exact h
  | some ts => exact upsertStep_touched_ne sd q st e ts hts

theorem foldl_touched_keep (sd q : String) (msgs : List RawMsg) :
    ∀ st : Db × IngestResult, st.2.threadIdsTouched ≠ [] →
      (msgs.foldl (upsertStep sd q) st).2.threadIdsTouched ≠ [] := by
  induction msgs with
  | nil => intro st h; exact h
  | cons m rest ih =>
    intro st h
    rw [List.foldl_cons]
    exact ih _ (upsertStep_touched_keep sd q st m h)

theorem ingest_touched_ne (sd q : String) (db : Db) (batch : List RawMsg)
    (hne : batch ≠ [])
    (hts : ∀ e ∈ batch, e.sentAt.isSome = true) :
    (upsertEmailsAndThreads sd q db batch).2.threadIdsTouched ≠ [] := by
  cases batch with
  | nil => exact absurd rfl hne
  | cons m rest =>
    unfold upsertEmailsAndThreads
    rw [List.foldl_cons]
    obtain ⟨ts, hts'⟩ := Option.isSome_iff_exists.mp (hts m (List.mem_cons_self m rest))
    exact foldl_touched_keep sd q rest _ (upsertStep_touched_ne sd q _ m ts hts')

/-- C3: ingestion is idempotent: for a non-empty batch in which every
message has a non-empty trimmed identifier and a parseable timestamp,
ingesting on the fresh store and then ingesting the same batch again
yields zero `createdEmailIds` on the second run, leaves the thread
collection exactly as the first run left it (zero new Thread records),
and produces a non-empty `touchedThreadIds` on both runs. -/
theorem ingest_idempotent_C3 (sd q : String) (batch : List RawMsg)
    (hne : batch ≠ [])
    (hcond : ∀ e ∈ batch, e.sentAt.isSome = true ∧ jsTrim e.messageId ≠ "") :
    (upsertEmailsAndThreads sd q
        (upsertEmailsAndThreads sd q Db.empty batch).1 batch).2.emailIdsCreated = [] ∧
    (upsertEmailsAndThreads sd q
        (upsertEmailsAndThreads sd q Db.empty batch).1 batch).1.threads =
      (upsertEmailsAndThreads sd q Db.empty batch).1.threads ∧
    (upsertEmailsAndThreads sd q Db.empty batch).2.threadIdsTouched ≠ [] ∧
    (upsertEmailsAndThreads sd q
        (upsertEmailsAndThreads sd q Db.empty batch).1 batch).2.threadIdsTouched ≠ [] := by
  have hmatch : ∀ e ∈ batch,
      ∃ x ∈ (upsertEmailsAndThreads sd q Db.empty batch).1.emails,
        x.messageId = jsTrim e.messageId := by
    intro e he
    obtain ⟨ts, hts'⟩ := Option.isSome_iff_exists.mp (hcond e he).1
    exact run1_matches sd q batch (Db.empty, ⟨[], []⟩) e he ts hts' (hcond e he).2
  have hfold := foldl_dup_all sd q batch
    ((upsertEmailsAndThreads sd q Db.empty batch).1, ⟨[], []⟩)
    (fun e he => ⟨(hcond e he).1, (hcond e he).2, hmatch e he⟩)
  refine ⟨hfold.2, ?_, ?_, ?_⟩
  · show (upsertEmailsAndThreads sd q
        (upsertEmailsAndThreads sd q Db.empty batch).1 batch).1.threads = _
    have h1 := hfold.1
    unfold upsertEmailsAndThreads
    unfold upsertEmailsAndThreads at h1
    rw [h1]
  · exact ingest_touched_ne sd q Db.empty batch hne (fun e he => (hcond e he).1)
  · exact ingest_touched_ne sd q _ batch hne (fun e he => (hcond e he).1)

/-- Witness for C3 at a concrete one-message batch. -/
theorem ingest_idempotent_C3_witness :
    (upsertEmailsAndThreads "futuregate.info" "q"
        (upsertEmailsAndThreads "futuregate.info" "q" Db.empty [exDupMsg2]).1
        [exDupMsg2]).2.emailIdsCreated = [] ∧
    (upsertEmailsAndThreads "futuregate.info" "q" Db.empty [exDupMsg2]).2.threadIdsTouched ≠ [] := by
  have h := ingest_idempotent_C3 "futuregate.info" "q" [exDupMsg2] (by decide)
    (by intro e he
        rcases List.mem_singleton.mp he with h1
        subst h1
        exact ⟨rfl, by decide⟩)
  exact ⟨h.1, h.2.2.1⟩

/-- The sent times of the stored emails belonging to thread `tid`. -/
def sentAtsOf (emails : List Email) (tid : Nat) : List Int :=
  (emails.filter fun e => e.threadId == tid).map fun e => e.sentAt

/-- Store invariant maintained by ingestion: ids are below the
fresh-id counter, thread ids are duplicate-free, and every thread's
window `[firstAt, lastAt]` is exactly the min/max (attained bounds) of
the sent times of its emails. -/
def WindowInv (db : Db) : Prop :=
  (∀ t ∈ db.threads, t.id < db.nextId) ∧
  (∀ e ∈ db.emails, e.threadId < db.nextId) ∧
  (db.threads.map fun t => t.id).Nodup ∧
  ∀ t ∈ db.threads,
    t.firstAt ∈ sentAtsOf db.emails t.id ∧ t.lastAt ∈ sentAtsOf db.emails t.id ∧
    ∀ s ∈ sentAtsOf db.emails t.id, t.firstAt ≤ s ∧ s ≤ t.lastAt

theorem sentAtsOf_append_one (emails : List Email) (em : Email) (tid : Nat) :
    sentAtsOf (emails ++ [em]) tid =
      sentAtsOf emails tid ++ if em.threadId == tid then [em.sentAt] else [] := by
  unfold sentAtsOf
  rw [List.filter_append, List.map_append]
  by_cases h : em.threadId == tid
  · simp [List.filter, h]
  · simp [List.filter, h]

theorem sentAtsOf_nil_of_lt (emails : List Email) (n : Nat)
    (h : ∀ x ∈ emails, x.threadId < n) : sentAtsOf emails n = [] := by
  unfold sentAtsOf
  have : emails.filter (fun e => e.threadId == n) = [] := by
    rw [List.filter_eq_nil]
    intro a ha
    have := h a ha
    simp only [beq_iff_eq]
    omega
  rw [this]
  rfl

theorem windowInv_empty : WindowInv Db.empty := by
  refine ⟨?_, ?_, ?_, ?_⟩ <;> simp [Db.empty]

theorem windowInv_create (db : Db) (nt : Thread) (em : Email)
    (hnt_id : nt.id = db.nextId) (hem_tid : em.threadId = db.nextId)
    (hfl : nt.firstAt = em.sentAt) (hll : nt.lastAt = em.sentAt)
    (h : WindowInv db) :
    WindowInv ⟨db.emails ++ [em], db.threads ++ [nt], db.nextId + 2⟩ := by
  obtain ⟨hTid, hEid, hNodup, hWin⟩ := h
  refine ⟨?_, ?_, ?_, ?_⟩
  · intro t ht
    rcases List.mem_append.mp ht with h1 | h1
    · have := hTid t h1
      simp only
      omega
    · have : t = nt := by simpa using h1
      rw [this, hnt_id]
      simp only
      omega
  · intro x hx
    rcases List.mem_append.mp hx with h1 | h1
    · have := hEid x h1
      simp only
      omega
    · have : x = em := by simpa using h1
      rw [this, hem_tid]
      simp only
      omega
  · simp only [List.map_append, List.map_cons, List.map_nil]
    rw [List.nodup_append]
    refine ⟨hNodup, List.nodup_singleton _, ?_⟩
    intro a ha
    have : a < db.nextId := by
      rcases List.mem_map.mp ha with ⟨t, ht, rfl⟩
      exact hTid t ht
    simp only [List.mem_singleton, hnt_id]
    omega
  · intro t ht
    rcases List.mem_append.mp ht with h1 | h1
    · have hid : t.id ≠ em.threadId := by
        have := hTid t h1
        omega
      have hsA : sentAtsOf (db.emails ++ [em]) t.id = sentAtsOf db.emails t.id := by
        rw [sentAtsOf_append_one]
        have : (em.threadId == t.id) = false := by
          simp only [beq_eq_false_iff_ne, ne_eq]
          omega
        rw [this]
        simp
      rw [hsA]
      exact hWin t h1
    · have ht' : t = nt := by simpa using h1
      subst ht'
      have hsA : sentAtsOf (db.emails ++ [em]) t.id = [em.sentAt] := by
        rw [sentAtsOf_append_one]
        rw [sentAtsOf_nil_of_lt db.emails t.id (by rw [hnt_id]; exact hEid)]
        have : (em.threadId == t.id) = true := by
          simp only [beq_iff_eq]
          omega
        rw [this]
        simp
      show t.firstAt ∈ sentAtsOf (db.emails ++ [em]) t.id ∧
        t.lastAt ∈ sentAtsOf (db.emails ++ [em]) t.id ∧
        ∀ s ∈ sentAtsOf (db.emails ++ [em]) t.id, t.firstAt ≤ s ∧ s ≤ t.lastAt
      rw [hsA, hfl, hll]
      refine ⟨List.mem_singleton_self _, List.mem_singleton_self _, ?_⟩
      intro s hs
      have : s = em.sentAt := by simpa using hs
      omega

theorem windowInv_update (db : Db) (th : Thread) (hmem : th ∈ db.threads) (em : Email)
    (upd : Thread)
    (hupd_id : upd.id = th.id)
    (hem_tid : em.threadId = th.id)
    (hupd_first : upd.firstAt = if em.sentAt < th.firstAt then em.sentAt else th.firstAt)
    (hupd_last : upd.lastAt = if th.lastAt < em.sentAt then em.sentAt else th.lastAt)
    (h : WindowInv db) :
    WindowInv ⟨db.emails ++ [em],
      db.threads.map (fun t => if t.id == th.id then upd else t), db.nextId + 1⟩ := by
  obtain ⟨hTid, hEid, hNodup, hWin⟩ := h
  have hth_lt : th.id < db.nextId := hTid th hmem
  have hid_pres : ∀ t : Thread, (if t.id == th.id then upd else t).id = t.id := by
    intro t
    by_cases hbeq : t.id == th.id
    · rw [if_pos hbeq, hupd_id]
      have : t.id = th.id := by simpa using hbeq
      omega
    · rw [if_neg hbeq]
  refine ⟨?_, ?_, ?_, ?_⟩
  · intro t ht
    rcases List.mem_map.mp ht with ⟨t0, ht0, rfl⟩
    rw [hid_pres t0]
    have := hTid t0 ht0
    simp only
    omega
  · intro x hx
    rcases List.mem_append.mp hx with h1 | h1
    · have := hEid x h1
      simp only
      omega
    · have : x = em := by simpa using h1
      rw [this, hem_tid]
      simp only
      omega
  · simp only
    rw [List.map_map]
    have : ((fun t : Thread => t.id) ∘ fun t => if t.id == th.id then upd else t) =
        fun t : Thread => t.id := by
      funext t
      exact hid_pres t
    rw [this]
    exact hNodup
  · intro t ht
    simp only at ht
    rcases List.mem_map.mp ht with ⟨t0, ht0, rfl⟩
    by_cases hbeq : t0.id == th.id
    · rw [if_pos hbeq]
      have hsA : sentAtsOf (db.emails ++ [em]) upd.id =
          sentAtsOf db.emails th.id ++ [em.sentAt] := by
        rw [sentAtsOf_append_one, hupd_id]
        have : (em.threadId == th.id) = true := by
          simp only [beq_iff_eq]
          omega
        rw [this]
        simp
      obtain ⟨hf, hl, hb⟩ := hWin th hmem
      show upd.firstAt ∈ sentAtsOf (db.emails ++ [em]) upd.id ∧
        upd.lastAt ∈ sentAtsOf (db.emails ++ [em]) upd.id ∧
        ∀ s ∈ sentAtsOf (db.emails ++ [em]) upd.id, upd.firstAt ≤ s ∧ s ≤ upd.lastAt
      rw [hsA]
      refine ⟨?_, ?_, ?_⟩
      · rw [hupd_first]
        by_cases hc : em.sentAt < th.firstAt
        · rw [if_pos hc]
          exact List.mem_append_right _ (List.mem_singleton_self _)
        · rw [if_neg hc]
          exact List.mem_append_left _ hf
      · rw [hupd_last]
        by_cases hc : th.lastAt < em.sentAt
        · rw [if_pos hc]
          exact List.mem_append_right _ (List.mem_singleton_self _)
        · rw [if_neg hc]
          exact List.mem_append_left _ hl
      · intro s hs
        rcases List.mem_append.mp hs with h1 | h1
        · obtain ⟨hb1, hb2⟩ := hb s h1
          constructor
          · rw [hupd_first]
            by_cases hc : em.sentAt < th.firstAt
            · rw [if_pos hc]
              omega
            · rw [if_neg hc]
              omega
          · rw [hupd_last]
            by_cases hc : th.lastAt < em.sentAt
            · rw [if_pos hc]
              omega
            · rw [if_neg hc]
              omega
        · have hse : s = em.sentAt := by simpa using h1
          constructor
          · rw [hupd_first]
            by_cases hc : em.sentAt < th.firstAt
            · rw [if_pos hc]
              omega
            · rw [if_neg hc]
              omega
          · rw [hupd_last]
            by_cases hc : th.lastAt < em.sentAt
            · rw [if_pos hc]
              omega
            · rw [if_neg hc]
              omega
    · rw [if_neg hbeq]
      have hne : t0.id ≠ th.id := by simpa using hbeq
      have hsA : sentAtsOf (db.emails ++ [em]) t0.id = sentAtsOf db.emails t0.id := by
        rw [sentAtsOf_append_one]
        have : (em.threadId == t0.id) = false := by
          simp only [beq_eq_false_iff_ne, ne_eq]
          omega
        rw [this]
        simp
      show t0.firstAt ∈ sentAtsOf (db.emails ++ [em]) t0.id ∧
        t0.lastAt ∈ sentAtsOf (db.emails ++ [em]) t0.id ∧
        ∀ s ∈ sentAtsOf (db.emails ++ [em]) t0.id, t0.firstAt ≤ s ∧ s ≤ t0.lastAt
      rw [hsA]
      exact hWin t0 ht0

theorem windowInv_step (sd q : String) (db : Db) (res : IngestResult) (e : RawMsg)
    (h : WindowInv db) : WindowInv (upsertStep sd q (db, res) e).1 := by
  unfold upsertStep
  cases hts : e.sentAt with
  | none => exact h
  | some ts =>
    simp only
    cases hd : dedupFind db (jsTrim e.messageId) with
    | some already => exact h
    | none =>
      cases hth : db.threads.find? (fun t =>
          t.key == threadKeyFor e.conversationId e.subject (safeEmail e.sender)
            (List.map safeEmail e.toAddr) (List.map safeEmail e.cc) && t.queryId == q) with
      | none => exact windowInv_create db _ _ rfl rfl rfl rfl h
      | some thread =>
        exact windowInv_update db thread (List.mem_of_find?_eq_some hth) _ _ rfl rfl rfl rfl h

theorem windowInv_fold (sd q : String) (msgs : List RawMsg) :
    ∀ st : Db × IngestResult, WindowInv st.1 →
      WindowInv (msgs.foldl (upsertStep sd q) st).1 := by
  induction msgs with
  | nil => intro st h; exact h
  | cons m rest ih =>
    intro st h
    rw [List.foldl_cons]
    exact ih _ (windowInv_step sd q st.1 st.2 m h)

theorem windowInv_batches (sd : String) (batches : List (String × List RawMsg)) :
    WindowInv (applyBatches sd batches) := by
  unfold applyBatches
  suffices hgen : ∀ db : Db, WindowInv db →
      WindowInv (batches.foldl (fun db b => (upsertEmailsAndThreads sd b.1 db b.2).1) db) from
    hgen Db.empty windowInv_empty
  induction batches with
  | nil => intro db h; exact h
  | cons b rest ih =>
    intro db h
    rw [List.foldl_cons]
    exact ih _ (windowInv_fold sd b.1 b.2 (db, ⟨[], []⟩) h)

/-- C6: for every Thread after any sequence of ingestion calls on the
fresh store, `firstAt ≤ lastAt`, and `firstAt` / `lastAt` are the
minimum / maximum of the `sentAt` values over the stored Emails whose
`threadId` equals the thread's id (each is attained and bounds every
such sent time). -/
theorem thread_window_C6 (sd : String) (batches : List (String × List RawMsg)) :
    ∀ t ∈ (applyBatches sd batches).threads,
      t.firstAt ≤ t.lastAt ∧
      t.firstAt ∈ sentAtsOf (applyBatches sd batches).emails t.id ∧
      t.lastAt ∈ sentAtsOf (applyBatches sd batches).emails t.id ∧
      ∀ s ∈ sentAtsOf (applyBatches sd batches).emails t.id,
        t.firstAt ≤ s ∧ s ≤ t.lastAt := by
  intro t ht
  obtain ⟨-, -, -, hWin⟩ := windowInv_batches sd batches
  obtain ⟨hf, hl, hb⟩ := hWin t ht
  exact ⟨(hb _ hl).1, hf, hl, hb⟩

/-- Fixture messages for the C6 witness: two messages of one
conversation at times 1000 and 2000. -/
def exWinMsgA : RawMsg :=
  ⟨"m1", "c1", "Hi", "A@x.com", ["b@futuregate.info"], [], some 1000, "hello", "", ""⟩

/-- Second fixture message for the C6 witness. -/
def exWinMsgB : RawMsg :=
  ⟨"m2", "c1", "Re: Hi", "b@futuregate.info", ["a@x.com"], [], some 2000, "yo", "", ""⟩

/-- The thread record ingestion builds for the two fixture messages. -/
def exWinThread : Thread :=
  ⟨0, "q", "conv:c1", "c1", "Hi", ["a@x.com", "b@futuregate.info"], 1000, 2000⟩

/-- Witness for C6 at a concrete ingestion. -/
theorem thread_window_C6_witness :
    exWinThread ∈ (applyBatches "futuregate.info" [("q", [exWinMsgA, exWinMsgB])]).threads ∧
    exWinThread.firstAt ≤ exWinThread.lastAt ∧
    exWinThread.firstAt ∈
      sentAtsOf (applyBatches "futuregate.info" [("q", [exWinMsgA, exWinMsgB])]).emails
        exWinThread.id := by
  have hmem : exWinThread ∈
      (applyBatches "futuregate.info" [("q", [exWinMsgA, exWinMsgB])]).threads := by decide
  have h := thread_window_C6 "futuregate.info" [("q", [exWinMsgA, exWinMsgB])] exWinThread hmem
  exact ⟨hmem, h.1, h.2.1⟩

/-- Six stored emails with non-empty snippets `s1` … `s6` in ascending
sent-time order, exercising the summarizer's snippet window. -/
def exSumEmails : List Email :=
  [⟨1, "q", 0, "", "", "", "", [], [], 1, "s1", "", "", Direction.client⟩,
    ⟨2, "q", 0, "", "", "", "", [], [], 2, "s2", "", "", Direction.client⟩,
    ⟨3, "q", 0, "", "", "", "", [], [], 3, "s3", "", "", Direction.client⟩,
    ⟨4, "q", 0, "", "", "", "", [], [], 4, "s4", "", "", Direction.client⟩,
    ⟨5, "q", 0, "", "", "", "", [], [], 5, "s5", "", "", Direction.client⟩,
    ⟨6, "q", 0, "", "", "", "", [], [], 6, "s6", "", "", Direction.client⟩]

/-- Counterexample for C9: with six non-empty snippets, the summary's
key-point lines are the *first five of the last eight* snippets —
`s1`…`s5` — so the line for `s1` appears even though `s1` is not among
the last five snippets (`s2`…`s6`), contradicting "at most the last 5
non-empty snippets". -/
theorem summary_counterexample_C9 :
    nonEmptySnippets (sortByDate exSumEmails) = ["s1", "s2", "s3", "s4", "s5", "s6"] ∧
    "- s1" ∈ keyPointLines exSumEmails ∧
    "- s1" ∉ (lastN 5 (nonEmptySnippets (sortByDate exSumEmails))).map snippetBullet := by
  refine ⟨by decide, by decide, by decide⟩

/-- C9 (amended): the local summarizer always returns empty
`actionItems`; its summary is the bullet list joined by newlines, whose
key-point lines are exactly the *first 5 of the last 8* non-empty
snippets of the messages in ascending sent-time order (hence at most 5
lines, present in the summary whenever there is a non-empty snippet),
each snippet truncated to 160 characters with an ellipsis marker
appended exactly when truncation occurred. -/
theorem summary_C9_amended (emails : List Email) :
    (basicSummaryFromEmails emails).actionItems = [] ∧
    (basicSummaryFromEmails emails).summary = String.intercalate "\n" (summaryBullets emails) ∧
    keyPointLines emails =
      ((lastN 8 (nonEmptySnippets (sortByDate emails))).take 5).map snippetBullet ∧
    (keyPointLines emails).length ≤ 5 ∧
    (lastN 8 (nonEmptySnippets (sortByDate emails)) ≠ [] →
      ∃ pre, summaryBullets emails =
        pre ++ "Key points (auto-extracted):" :: keyPointLines emails) ∧
    ∀ s : String,
      (160 < s.data.length → snippetBullet s = "- " ++ takeStr 160 s ++ "…") ∧
      (s.data.length ≤ 160 → snippetBullet s = "- " ++ s) := by
  refine ⟨rfl, rfl, rfl, ?_, ?_, ?_⟩
  · unfold keyPointLines
    rw [List.length_map, List.length_take]
    omega
  · intro hne
    have hlen : (lastN 8 (nonEmptySnippets (sortByDate emails))).length ≠ 0 := by
      intro h0
      exact hne (List.length_eq_zero.mp h0)
    unfold summaryBullets
    simp only
    rw [if_pos hlen]
    exact ⟨_, rfl⟩
  · intro s
    constructor
    · intro hlong
      unfold snippetBullet
      rw [if_pos hlong]
    · intro hshort
      unfold snippetBullet
      rw [if_neg (by omega)]
      have h1 : takeStr 160 s = s := by
        unfold takeStr
        rw [List.take_of_length_le hshort]
      rw [h1]
      rw [String.append_empty]

/-- Witness for the amended C9 at the six-snippet fixture. -/
theorem summary_C9_amended_witness :
    (basicSummaryFromEmails exSumEmails).actionItems = [] ∧
    keyPointLines exSumEmails = ["- s1", "- s2", "- s3", "- s4", "- s5"] := by
  have h := summary_C9_amended exSumEmails
  refine ⟨h.1, ?_⟩
  rw [h.2.2.1]
  decide
